import Mathlib

/-!
Shallow embedding of the dbproto storage engine (Go sources under pkg/data
and pkg/utils) and proofs about the spec's claims.

Modelling conventions, fixed once here:

* `structpb.Value` is the inductive `VData` (string / number / bool / null).
  Struct- and list-valued protobuf values are never produced by the engine's
  own codec, so they are not represented; the `default:` arms of the Go
  switches that would catch them are the omitted constructors.
* Go `float64` payloads are modelled as `ℚ`.  Every number the engine's own
  code paths store is an integer-valued double, and no claim below depends
  on rounding, so the exact-arithmetic model is faithful where it is used.
* Go maps are modelled as association lists; the list order stands for one
  admissible iteration order of the map (Go leaves that order unspecified).
* Value objects carry an allocation tag `vid`.  Go compares `*structpb.Value`
  pointers in `Table.Update`'s index maintenance; freshly unmarshalled values
  get fresh tags, so tag equality is pointer equality for the states built
  here.
-/

deriving instance DecidableEq for Except

namespace DBProto

/-! ## Values: the `structpb.Value` payloads the engine stores -/

/-- Stored value payload: the kinds of `structpb.Value` the engine produces. -/
inductive VData : Type
  | vstr (s : String)
  | vnum (q : ℚ)
  | vbool (b : Bool)
  | vnull
  deriving DecidableEq, Repr

/-- `GetStringValue`: the string payload, or the zero value `""` for any other kind. -/
def getStringValue : VData → String
  | .vstr s => s
  | _ => ""

/-- `GetNumberValue`: the number payload, or `0` for any other kind. -/
def getNumberValue : VData → ℚ
  | .vnum q => q
  | _ => 0

/-- `GetBoolValue`: the bool payload, or `false` for any other kind. -/
def getBoolValue : VData → Bool
  | .vbool b => b
  | _ => false

/-- Host-language (Go) scalars handed to the engine.  `hBad` stands for any Go
value `structpb.NewValue` rejects (a channel, a struct, ...). -/
inductive HostValue : Type
  | hInt (i : ℤ)
  | hFloat (q : ℚ)
  | hStr (s : String)
  | hBool (b : Bool)
  | hNull
  | hBad
  deriving DecidableEq, Repr

/-! ## Decimal formatting and parsing (`strconv.FormatInt` / `strconv.ParseInt`) -/

/-- The decimal digit character for `d < 10`. -/
def digitChar (d : ℕ) : Char := Char.ofNat (48 + d)

/-- Digit characters of `n`, least significant first, driven by a fuel
argument so the kernel can evaluate it (`n` itself is always enough fuel). -/
def natRevDigitsF : ℕ → ℕ → List Char
  | 0, _ => []
  | fuel + 1, n => if n = 0 then [] else digitChar (n % 10) :: natRevDigitsF fuel (n / 10)

/-- Digit characters of `n`, least significant first. -/
def natRevDigits (n : ℕ) : List Char := natRevDigitsF n n

theorem natRevDigitsF_congr :
    ∀ f1 f2 n : ℕ, n ≤ f1 → n ≤ f2 → natRevDigitsF f1 n = natRevDigitsF f2 n := by
  intro f1
  induction f1 with
  | zero =>
    intro f2 n h1 h2
    obtain rfl : n = 0 := Nat.le_zero.mp h1
    cases f2 <;> simp [natRevDigitsF]
  | succ f ih =>
    intro f2 n h1 h2
    match n with
    | 0 => cases f2 <;> simp [natRevDigitsF]
    | m + 1 =>
      obtain ⟨g, rfl⟩ : ∃ g, f2 = g + 1 := ⟨f2 - 1, by omega⟩
      have hdiv : (m + 1) / 10 < m + 1 := Nat.div_lt_self (Nat.succ_pos m) (by omega)
      rw [natRevDigitsF, natRevDigitsF, if_neg (Nat.succ_ne_zero m),
        if_neg (Nat.succ_ne_zero m), ih g ((m + 1) / 10) (by omega) (by omega)]

theorem natRevDigits_succ (m : ℕ) :
    natRevDigits (m + 1) = digitChar ((m + 1) % 10) :: natRevDigits ((m + 1) / 10) := by
  show natRevDigitsF (m + 1) (m + 1) = _
  rw [natRevDigitsF, if_neg (Nat.succ_ne_zero m)]
  have hdiv : (m + 1) / 10 < m + 1 := Nat.div_lt_self (Nat.succ_pos m) (by omega)
  rw [natRevDigitsF_congr m ((m + 1) / 10) ((m + 1) / 10) (by omega) (le_refl _)]
  rfl

/-- Decimal digit string of a natural number, most significant first. -/
def natChars (n : ℕ) : List Char := if n = 0 then ['0'] else (natRevDigits n).reverse

/-- `strconv.FormatInt(i, 10)`. -/
def formatInt (i : ℤ) : String :=
  if i < 0 then ⟨'-' :: natChars i.natAbs⟩ else ⟨natChars i.natAbs⟩

/-- Numeric value of a digit character. -/
def digitVal (c : Char) : ℕ := c.toNat - 48

/-- Value of a most-significant-first digit-character list. -/
def charsVal (cs : List Char) : ℕ := cs.foldl (fun a c => a * 10 + digitVal c) 0

/-- Digits-and-range part of `strconv.ParseInt`: at least one decimal digit,
and the signed value must fit in 64 bits. -/
def parseDigits (neg : Bool) (ds : List Char) : Option ℤ :=
  if ds = [] then none
  else if ds.all Char.isDigit then
    if neg then (if charsVal ds ≤ 2 ^ 63 then some (-(charsVal ds : ℤ)) else none)
    else (if charsVal ds ≤ 2 ^ 63 - 1 then some ((charsVal ds : ℤ)) else none)
  else none

/-- `strconv.ParseInt(s, 10, 64)`: an optional sign followed by at least one
decimal digit, with the result required to fit in a signed 64-bit integer. -/
def parseInt64 (s : String) : Option ℤ :=
  match s.data with
  | [] => none
  | c :: cs =>
    if c = '-' then parseDigits true cs
    else if c = '+' then parseDigits false cs
    else parseDigits false (c :: cs)

/-! ## The value codec (`toProtoValue`, `fromProtoValue`, `structpb.NewValue`) -/

/-- `structpb.NewValue`: the generic Go-to-proto conversion.  Integers become
doubles here (this is the conversion `Table.Update` uses). -/
def structpbNewValue : HostValue → Except Unit VData
  | .hInt i => .ok (.vnum (i : ℚ))
  | .hFloat q => .ok (.vnum q)
  | .hStr s => .ok (.vstr s)
  | .hBool b => .ok (.vbool b)
  | .hNull => .ok .vnull
  | .hBad => .error ()

/-- `toProtoValue`: integers are stored as strings tagged `num:`; floats,
strings and bools keep their kind; anything else goes through
`structpb.NewValue`. -/
def toProtoValue : HostValue → Except Unit VData
  | .hInt i => .ok (.vstr ("num:" ++ formatInt i))
  | .hFloat q => .ok (.vnum q)
  | .hStr s => .ok (.vstr s)
  | .hBool b => .ok (.vbool b)
  | v => structpbNewValue v

/-- The guard `len(s) > 4 && s[:4] == "num:"` from `fromProtoValue`.  Go slices
bytes; since `"num:"` is ASCII the byte test and the character test agree. -/
def hasNumTag (s : String) : Bool :=
  decide (4 < s.data.length) && s.data.take 4 == ['n', 'u', 'm', ':']

/-- `fromProtoValue`: strings tagged `num:` are parsed back to integers (a
parse failure is an error), every other payload is returned as-is.  Note that
no `str:` tag is stripped here. -/
def fromProtoValue : VData → Except Unit HostValue
  | .vstr s =>
    if hasNumTag s then
      match parseInt64 ⟨s.data.drop 4⟩ with
      | some i => .ok (.hInt i)
      | none => .error ()
    else .ok (.hStr s)
  | .vnum q => .ok (.hFloat q)
  | .vbool b => .ok (.hBool b)
  | .vnull => .ok .hNull

/-- The `str:` wrapping `Table.Insert` applies to every string whose entire
text parses as a 64-bit integer, before calling `toProtoValue`. -/
def strWrap : HostValue → HostValue
  | .hStr s => if (parseInt64 s).isSome then .hStr ("str:" ++ s) else .hStr s
  | v => v

/-- The stored form of one field value on the `Table.Insert` path:
`str:`-wrapping followed by `toProtoValue`. -/
def insertEncodeValue (v : HostValue) : Except Unit VData := toProtoValue (strWrap v)

/-! ## `Equal` (pkg/data/table.go): filter equality on stored values -/

/-- `Equal`: switches on the kind of the left operand only and compares the
corresponding projection of both operands; kinds with no projection case
(here `vnull`, in Go also structs and lists) compare `false`. -/
def EqualV (v1 v2 : VData) : Bool :=
  match v1 with
  | .vnum q => q == getNumberValue v2
  | .vstr s => s == getStringValue v2
  | .vbool b => b == getBoolValue v2
  | .vnull => false

/-- The full store-then-load path for one field value on the insert/select
pair: encode as `Table.Insert` does, then decode as `fromProtoValue` does. -/
def storeThenLoad (v : HostValue) : Except Unit HostValue :=
  match insertEncodeValue v with
  | .error e => .error e
  | .ok d => fromProtoValue d

/-! ## Correctness of decimal formatting against parsing -/

theorem digitVal_digitChar (d : ℕ) (h : d < 10) : digitVal (digitChar d) = d := by
  interval_cases d <;> rfl

theorem isDigit_digitChar (d : ℕ) (h : d < 10) : (digitChar d).isDigit = true := by
  interval_cases d <;> rfl

/-- Value of a least-significant-first digit list. -/
def lval : List Char → ℕ
  | [] => 0
  | c :: cs => digitVal c + 10 * lval cs

theorem lval_natRevDigits (n : ℕ) : lval (natRevDigits n) = n := by
  induction n using Nat.strong_induction_on with
  | _ n ih =>
    match n with
    | 0 => simp [natRevDigits, natRevDigitsF, lval]
    | m + 1 =>
      rw [natRevDigits_succ, lval, digitVal_digitChar _ (Nat.mod_lt _ (by omega)),
        ih ((m + 1) / 10) (Nat.div_lt_self (Nat.succ_pos m) (by omega))]
      omega

theorem isDigit_of_mem_natRevDigits (n : ℕ) :
    ∀ c ∈ natRevDigits n, c.isDigit = true := by
  induction n using Nat.strong_induction_on with
  | _ n ih =>
    match n with
    | 0 => intro c hc; simp [natRevDigits, natRevDigitsF] at hc
    | m + 1 =>
      intro c hc
      rw [natRevDigits_succ] at hc
      rcases List.mem_cons.mp hc with h | h
      · exact h ▸ isDigit_digitChar _ (Nat.mod_lt _ (by omega))
      · exact ih ((m + 1) / 10) (Nat.div_lt_self (Nat.succ_pos m) (by omega)) c h

theorem foldr_eq_lval (cs : List Char) :
    cs.foldr (fun c a => a * 10 + digitVal c) 0 = lval cs := by
  induction cs with
  | nil => rfl
  | cons c rest ih => rw [List.foldr_cons, lval, ih]; omega

theorem charsVal_reverse (cs : List Char) : charsVal cs.reverse = lval cs := by
  rw [charsVal, List.foldl_reverse]
  exact foldr_eq_lval cs

theorem charsVal_natChars (n : ℕ) : charsVal (natChars n) = n := by
  by_cases h : n = 0
  · subst h; rfl
  · rw [natChars, if_neg h, charsVal_reverse, lval_natRevDigits]

theorem natChars_ne_nil (n : ℕ) : natChars n ≠ [] := by
  by_cases h : n = 0
  · subst h; simp [natChars]
  · rw [natChars, if_neg h]
    intro hrev
    obtain ⟨m, rfl⟩ : ∃ m, n = m + 1 := ⟨n - 1, by omega⟩
    rw [natRevDigits_succ] at hrev
    simp at hrev

theorem isDigit_of_mem_natChars (n : ℕ) : ∀ c ∈ natChars n, c.isDigit = true := by
  by_cases h : n = 0
  · subst h; intro c hc; simp [natChars] at hc; subst hc; rfl
  · rw [natChars, if_neg h]
    intro c hc
    exact isDigit_of_mem_natRevDigits n c (List.mem_reverse.mp hc)

theorem digit_ne_minus {c : Char} (h : c.isDigit = true) : ¬ (c = '-' ∨ c = '+') := by
  rintro (rfl | rfl) <;> simp [Char.isDigit] at h

theorem parseDigits_natChars (neg : Bool) (n : ℕ) :
    parseDigits neg (natChars n)
      = if neg then (if n ≤ 2 ^ 63 then some (-(n : ℤ)) else none)
        else (if n ≤ 2 ^ 63 - 1 then some ((n : ℤ)) else none) := by
  have hall : (natChars n).all Char.isDigit = true :=
    List.all_eq_true.mpr (isDigit_of_mem_natChars n)
  rw [parseDigits, if_neg (natChars_ne_nil n), if_pos hall, charsVal_natChars]

/-- Parsing inverts formatting for every integer in the signed 64-bit range. -/
theorem parseInt64_formatInt (i : ℤ) (h1 : -(2 ^ 63) ≤ i) (h2 : i < 2 ^ 63) :
    parseInt64 (formatInt i) = some i := by
  by_cases hneg : i < 0
  · rw [formatInt, if_pos hneg]
    show (if '-' = '-' then parseDigits true (natChars i.natAbs)
      else if '-' = '+' then parseDigits false (natChars i.natAbs)
      else parseDigits false ('-' :: natChars i.natAbs)) = some i
    rw [if_pos rfl, parseDigits_natChars, if_pos rfl, if_pos (by omega)]
    simp only [Option.some.injEq]
    omega
  · rw [formatInt, if_neg hneg]
    obtain ⟨c, cs, hc⟩ : ∃ c cs, natChars i.natAbs = c :: cs := by
      match h : natChars i.natAbs with
      | [] => exact absurd h (natChars_ne_nil _)
      | c :: cs => exact ⟨c, cs, rfl⟩
    have hdig : c.isDigit = true :=
      isDigit_of_mem_natChars i.natAbs c (by rw [hc]; exact List.mem_cons_self _ _)
    have hnm := digit_ne_minus hdig
    have hmk : (⟨natChars i.natAbs⟩ : String) = ⟨c :: cs⟩ := congrArg String.mk hc
    rw [hmk]
    show (if c = '-' then parseDigits true cs
      else if c = '+' then parseDigits false cs
      else parseDigits false (c :: cs)) = some i
    rw [if_neg (fun h => hnm (Or.inl h)), if_neg (fun h => hnm (Or.inr h)), ← hc,
      parseDigits_natChars]
    rw [if_neg (by simp), if_pos (by omega)]
    simp only [Option.some.injEq]
    omega

/-! ## Claim C2: the value codec round trip -/

/-- Claim C2, counterexample.  The spec says the decoder strips the `str:`
prefix back to the original digit string; in the code `fromProtoValue` strips
only `num:`, so the stored form of the string `"123"` decodes to `"str:123"`,
not to `"123"`. -/
theorem storeThenLoad_digit_string_not_identity :
    insertEncodeValue (.hStr "123") = .ok (.vstr "str:123")
      ∧ storeThenLoad (.hStr "123") = .ok (.hStr "str:123")
      ∧ (HostValue.hStr "str:123") ≠ (HostValue.hStr "123") := by
  refine ⟨by decide, by decide, by decide⟩

theorem data_str_append (s : String) :
    ("str:" ++ s).data = 's' :: 't' :: 'r' :: ':' :: s.data :=
  String.data_append _ _

theorem data_num_append (s : String) :
    ("num:" ++ s).data = 'n' :: 'u' :: 'm' :: ':' :: s.data :=
  String.data_append _ _

theorem formatInt_data_ne_nil (i : ℤ) : (formatInt i).data ≠ [] := by
  rw [formatInt]
  split
  · simp
  · simpa using natChars_ne_nil i.natAbs

theorem hasNumTag_num_append (s : String) (h : s.data ≠ []) :
    hasNumTag ("num:" ++ s) = true := by
  rw [hasNumTag, data_num_append]
  have hlen : 4 < ('n' :: 'u' :: 'm' :: ':' :: s.data).length := by
    have := List.length_pos.mpr h
    simp only [List.length_cons]
    omega
  rw [decide_eq_true hlen]
  simp [List.take_succ_cons]

theorem hasNumTag_str_append (s : String) : hasNumTag ("str:" ++ s) = false := by
  rw [hasNumTag, data_str_append]
  simp [List.take]

/-- Claim C2 (amended): integers in the 64-bit range, floats and booleans
round-trip through the stored form; a string that parses entirely as a 64-bit
integer is stored as `str:<input>` and decodes to `str:<input>` (the decoder
does not strip the `str:` prefix); every other string without the `num:` shape
is unchanged. -/
theorem value_codec_roundtrip_amended :
    (∀ i : ℤ, -(2 ^ 63) ≤ i → i < 2 ^ 63 → storeThenLoad (.hInt i) = .ok (.hInt i))
      ∧ (∀ q : ℚ, storeThenLoad (.hFloat q) = .ok (.hFloat q))
      ∧ (∀ b : Bool, storeThenLoad (.hBool b) = .ok (.hBool b))
      ∧ (∀ s : String, (parseInt64 s).isSome = true →
          storeThenLoad (.hStr s) = .ok (.hStr ("str:" ++ s)))
      ∧ (∀ s : String, (parseInt64 s).isSome = false → hasNumTag s = false →
          storeThenLoad (.hStr s) = .ok (.hStr s)) := by
  refine ⟨fun i h1 h2 => ?_, fun q => rfl, fun b => rfl, fun s hs => ?_, fun s hs hn => ?_⟩
  · have htag := hasNumTag_num_append (formatInt i) (formatInt_data_ne_nil i)
    have hdrop : (("num:" ++ formatInt i)).data.drop 4 = (formatInt i).data := by
      rw [data_num_append]; rfl
    simp only [storeThenLoad, insertEncodeValue, strWrap, toProtoValue, fromProtoValue,
      htag, if_true, hdrop]
    have : (⟨(formatInt i).data⟩ : String) = formatInt i := rfl
    rw [this, parseInt64_formatInt i h1 h2]
  · simp only [storeThenLoad, insertEncodeValue, strWrap, hs, if_true, toProtoValue,
      fromProtoValue, hasNumTag_str_append s, Bool.false_eq_true, if_false]
  · have hs' : (parseInt64 s).isSome ≠ true := by rw [hs]; exact Bool.false_ne_true
    simp only [storeThenLoad, insertEncodeValue, strWrap, if_neg hs', toProtoValue,
      fromProtoValue, hn, Bool.false_eq_true, if_false]

/-- Claim C2, witness: the amended round trip evaluated at the integer 5, the
float 3, a boolean, the digit string `"42"` and the plain string `"Ada"`. -/
theorem value_codec_roundtrip_amended_witness :
    storeThenLoad (.hInt 5) = .ok (.hInt 5)
      ∧ storeThenLoad (.hFloat 3) = .ok (.hFloat 3)
      ∧ storeThenLoad (.hBool true) = .ok (.hBool true)
      ∧ storeThenLoad (.hStr "42") = .ok (.hStr "str:42")
      ∧ storeThenLoad (.hStr "Ada") = .ok (.hStr "Ada") :=
  ⟨value_codec_roundtrip_amended.1 5 (by decide) (by decide),
    value_codec_roundtrip_amended.2.1 3,
    value_codec_roundtrip_amended.2.2.1 true,
    value_codec_roundtrip_amended.2.2.2.1 "42" (by decide),
    value_codec_roundtrip_amended.2.2.2.2 "Ada" (by decide) (by decide)⟩

/-! ## Claim C6: cross-kind equality of stored values -/

/-- The kind tag of a stored value. -/
inductive VKind : Type
  | kstr
  | knum
  | kbool
  | knull
  deriving DecidableEq, Repr

/-- Kind of a stored value. -/
def kindOf : VData → VKind
  | .vstr _ => .kstr
  | .vnum _ => .knum
  | .vbool _ => .kbool
  | .vnull => .knull

/-- Whether a stored value is the zero value of its own kind (`0`, `""`,
`false`; a null value is never treated as a zero). -/
def isKindZero : VData → Bool
  | .vnum q => q == 0
  | .vstr s => s == ""
  | .vbool b => b == false
  | .vnull => false

/-- Claim C6, counterexample.  The spec says equality between stored values of
different kinds is always false, but `Equal` projects the right operand at the
left operand's kind, so the number `0` compares equal to the string `"x"`. -/
theorem equal_cross_kind_counterexample :
    kindOf (.vnum 0) ≠ kindOf (.vstr "x") ∧ EqualV (.vnum 0) (.vstr "x") = true := by
  refine ⟨by decide, by decide⟩

/-- Claim C6 (amended): `Equal` on two stored values of different kinds
returns true exactly when the left operand is the zero value of its own kind
(number `0`, empty string, or `false`), because the right operand is read
through the left kind's projection, which yields that kind's default; for any
left operand that is not such a zero value, cross-kind equality is false. -/
theorem equal_cross_kind_amended (v1 v2 : VData) (h : kindOf v1 ≠ kindOf v2) :
    EqualV v1 v2 = isKindZero v1 := by
  cases v1 <;> cases v2 <;>
    simp_all [EqualV, kindOf, isKindZero, getNumberValue, getStringValue, getBoolValue]

/-- Claim C6, witness: the amended statement evaluated at the boolean `true`
against the number `3` (different kinds, not a zero value, equality false). -/
theorem equal_cross_kind_amended_witness :
    EqualV (.vbool true) (.vnum 3) = isKindZero (.vbool true)
      ∧ isKindZero (.vbool true) = false :=
  ⟨equal_cross_kind_amended (.vbool true) (.vnum 3) (by decide), by decide⟩

/-! ## Records, the in-memory table state, and file (de)serialization

The file always holds a decodable record set in the states built here, so the
file is modelled by its decoded contents (`FileRecs`); the crypto layer that
justifies this abstraction is verified separately below.  Unmarshalling
allocates fresh value objects, modelled by tagging each value with a fresh
`vid` drawn from the table's allocation counter. -/

/-- An in-memory `*structpb.Value`: payload plus allocation tag (the tag
plays the role of the pointer). -/
structure PVal : Type where
  vid : ℕ
  data : VData
  deriving DecidableEq, Repr

/-- An in-memory `*dbdata.Record`: field name to value object. -/
abbrev MRec := List (String × PVal)

/-- A record as serialized in the file (identity-free). -/
abbrev FileRec := List (String × VData)

/-- The decoded contents of a table file: primary-key string to record. -/
abbrev FileRecs := List (String × FileRec)

/-- Go map read `m[k]`. -/
def lookupA {α : Type} (l : List (String × α)) (k : String) : Option α :=
  (l.find? (fun p => p.1 == k)).map (·.2)

/-- Go map write `m[k] = v`: replace the entry for `k` in place, or append a
new entry when `k` is absent (the model's maps keep their keys distinct, so
replacing the first occurrence is replacing the only one). -/
def setA {α : Type} : List (String × α) → String → α → List (String × α)
  | [], k, v => [(k, v)]
  | p :: rest, k, v => if p.1 == k then (k, v) :: rest else p :: setA rest k v

/-- Go map delete `delete(m, k)`. -/
def delA {α : Type} (l : List (String × α)) (k : String) : List (String × α) :=
  l.filter (fun p => !(p.1 == k))

/-- Unmarshal one record: allocate a fresh value object per field. -/
def allocRec : FileRec → ℕ → MRec × ℕ
  | [], c => ([], c)
  | (k, d) :: rest, c =>
    let t := allocRec rest (c + 1)
    ((k, ⟨c, d⟩) :: t.1, t.2)

/-- Unmarshal a record set: allocate fresh objects throughout. -/
def allocRecs : FileRecs → ℕ → List (String × MRec) × ℕ
  | [], c => ([], c)
  | (k, fr) :: rest, c =>
    let hd := allocRec fr c
    let t := allocRecs rest hd.2
    ((k, hd.1) :: t.1, t.2)

/-- Marshal one record: drop the allocation tags. -/
def stripRec (m : MRec) : FileRec := m.map (fun p => (p.1, p.2.2))

/-- Marshal a record set. -/
def stripRecs (rs : List (String × MRec)) : FileRecs := rs.map (fun p => (p.1, stripRec p.2))

theorem stripRec_allocRec (fr : FileRec) (c : ℕ) : stripRec (allocRec fr c).1 = fr := by
  induction fr generalizing c with
  | nil => rfl
  | cons p rest ih => cases p; simp [allocRec, stripRec] at *; exact ih _

theorem stripRecs_allocRecs (f : FileRecs) (c : ℕ) : stripRecs (allocRecs f c).1 = f := by
  induction f generalizing c with
  | nil => rfl
  | cons p rest ih =>
    cases p with
    | mk k fr =>
      have h1 : stripRec (allocRec fr c).1 = fr := stripRec_allocRec fr c
      have h2 := ih (allocRec fr c).2
      simp [stripRecs, allocRecs, List.map_cons] at h2 ⊢
      exact ⟨h1, h2⟩

/-- The in-memory state of one `Table` (pkg/data/table.go).  `metrics` carries
no behaviour relevant to any claim and is omitted.  `ctr` is the allocation
counter for value tags. -/
structure TableState : Type where
  primaryKey : String
  file : FileRecs
  records : List (String × MRec)
  indexes : List (String × List MRec)
  cache : List (String × MRec)
  ctr : ℕ
  deriving DecidableEq, Repr

/-- A fresh table for a just-created file: everything empty
(`NewTable` after `initializeFileIfNotExists` and `LoadIndexes` on the
empty record set). -/
def freshTable (pk : String) : TableState :=
  { primaryKey := pk, file := [], records := [], indexes := [], cache := [], ctr := 0 }

/-- Errors surfaced by the table operations. -/
inductive TErr : Type
  | pkMissing
  | pkNilOrEmpty
  | badValue
  | duplicate
  | notFound
  | decodeFailed
  deriving DecidableEq, Repr

/-- `fmt.Sprintf("%v", key)`, for the key kinds the engine receives.  Go
prints integer-valued doubles without a decimal point; non-integral doubles
are printed here in a fixed but arbitrary form, and no property below
depends on that case.  `hBad` stands for an opaque non-scalar; its printed
form is likewise never relied upon. -/
def formatHost : HostValue → String
  | .hInt i => formatInt i
  | .hStr s => s
  | .hBool b => cond b "true" "false"
  | .hFloat q => if q.den = 1 then formatInt q.num else formatInt q.num ++ "div" ++ formatInt q.den
  | .hNull => "<nil>"
  | .hBad => "<opaque>"

/-- `writeRecordsToFile`: serialize the given record set into the file and
install it as `t.Records` (the Go method assigns `t.Records =
records.Records`). -/
def writeRecords (t : TableState) (all : List (String × MRec)) : TableState :=
  { t with file := stripRecs all, records := all }

/-- The field-building loop of `Table.Insert`: each value is `str:`-wrapped
when it parses as an integer, then converted by `toProtoValue`; the first
conversion failure aborts. -/
def buildProtoRecord : List (String × HostValue) → ℕ → Except Unit (MRec × ℕ)
  | [], c => .ok ([], c)
  | (k, v) :: rest, c =>
    match toProtoValue (strWrap v) with
    | .error e => .error e
    | .ok d =>
      match buildProtoRecord rest (c + 1) with
      | .error e => .error e
      | .ok (ms, c') => .ok ((k, ⟨c, d⟩) :: ms, c')

/-- `Table.Insert` (pkg/data/table.go, lines 174-229): read the file, wrap and
convert the primary key, validate it, convert every field, reject duplicate
keys, then store the record in the record set and the cache and write the
file.  No index maintenance happens on this path. -/
def Insert (t : TableState) (rec : List (String × HostValue)) : TableState × Option TErr :=
  let read := allocRecs t.file t.ctr
  match lookupA rec t.primaryKey with
  | none => ({ t with ctr := read.2 }, some .pkMissing)
  | some pkv =>
    match toProtoValue (strWrap pkv) with
    | .error _ => ({ t with ctr := read.2 }, some .badValue)
    | .ok pkd =>
      let pks := getStringValue pkd
      if pks = "<nil>" ∨ pks = "" then ({ t with ctr := read.2 }, some .pkNilOrEmpty)
      else
        match buildProtoRecord rec read.2 with
        | .error _ => ({ t with ctr := read.2 }, some .badValue)
        | .ok (pr, c2) =>
          if (lookupA read.1 pks).isSome then ({ t with ctr := c2 }, some .duplicate)
          else
            let all' := setA read.1 pks pr
            (writeRecords { t with cache := setA t.cache pks pr, ctr := c2 } all', none)

/-- `fromProtoRecord`: decode every field of a stored record. -/
def fromProtoRecord : MRec → Except TErr (List (String × HostValue))
  | [] => .ok []
  | (k, v) :: rest =>
    match fromProtoValue v.data with
    | .error _ => .error .decodeFailed
    | .ok hv =>
      match fromProtoRecord rest with
      | .error e => .error e
      | .ok hs => .ok ((k, hv) :: hs)

/-- `Table.Select` (pkg/data/table.go, lines 397-422): stringify the key,
serve from the cache on a hit, otherwise read the file, fail if the key is
absent, and populate the cache. -/
def Select (t : TableState) (key : HostValue) :
    TableState × Except TErr (List (String × HostValue)) :=
  let keyStr := formatHost key
  match lookupA t.cache keyStr with
  | some r => (t, fromProtoRecord r)
  | none =>
    let read := allocRecs t.file t.ctr
    match lookupA read.1 keyStr with
    | none => ({ t with ctr := read.2 }, .error .notFound)
    | some r =>
      ({ t with cache := setA t.cache keyStr r, ctr := read.2 }, fromProtoRecord r)

/-- The per-field loop of `Table.Update`.  For each updated field: if the
record has an old value for it, rebuild the field's bucket keeping entries
whose value *object* differs from the old one (Go compares `*structpb.Value`
pointers; value tags model that), then convert the new value via
`structpb.NewValue` — a failure returns immediately, with the bucket work
already done — then set the field and append the record to the bucket.

Go appends a pointer to the one record object, so entries appended for
earlier fields also reflect later field assignments; the model appends the
record's contents as of the append.  The two agree on every state examined
below: the file, record map and cache never depend on it, and the one
failing update inspected appends for exactly one field before failing. -/
def updateFields (fields : List (String × HostValue)) (rec : MRec)
    (idx : List (String × List MRec)) (c : ℕ) :
    MRec × List (String × List MRec) × ℕ × Bool :=
  match fields with
  | [] => (rec, idx, c, false)
  | (f, nv) :: rest =>
    let idx1 :=
      match lookupA rec f with
      | some ov =>
        setA idx f (((lookupA idx f).getD []).filter (fun r => !(lookupA r f == some ov)))
      | none => idx
    match structpbNewValue nv with
    | .error _ => (rec, idx1, c, true)
    | .ok nd =>
      let rec' := setA rec f ⟨c, nd⟩
      let idx2 := setA idx1 f (((lookupA idx1 f).getD []) ++ [rec'])
      updateFields rest rec' idx2 (c + 1)

/-- `Table.Update` (pkg/data/table.go, lines 447-484): read the file, fail if
the key is absent, run the per-field loop (which mutates the indexes as it
goes), then store the updated record in the record set and the cache and
write the file.  A conversion failure surfaces after the loop's partial
index mutations, with the file, record set and cache untouched. -/
def Update (t : TableState) (key : HostValue) (updates : List (String × HostValue)) :
    TableState × Option TErr :=
  let keyStr := formatHost key
  let read := allocRecs t.file t.ctr
  match lookupA read.1 keyStr with
  | none => ({ t with ctr := read.2 }, some .notFound)
  | some existing =>
    let lp := updateFields updates existing t.indexes read.2
    if lp.2.2.2 then ({ t with indexes := lp.2.1, ctr := lp.2.2.1 }, some .badValue)
    else
      let all' := setA read.1 keyStr lp.1
      (writeRecords
        { t with indexes := lp.2.1, cache := setA t.cache keyStr lp.1, ctr := lp.2.2.1 }
        all', none)

/-- Index cleanup of `Table.Delete` for one field: drop the first bucket entry
whose primary-key field stringifies to the deleted key. -/
def removeFirstByPk (bucket : List MRec) (pk keyStr : String) : List MRec :=
  match bucket with
  | [] => []
  | r :: rest =>
    match lookupA r pk with
    | some v => if getStringValue v.data == keyStr then rest else r :: removeFirstByPk rest pk keyStr
    | none => r :: removeFirstByPk rest pk keyStr

/-- One field's index update in `Table.Delete`: remove the record from the
bucket and drop the bucket entirely if it ends up empty. -/
def deleteIdxField (pk keyStr : String) (idx : List (String × List MRec)) (field : String) :
    List (String × List MRec) :=
  let b := (lookupA idx field).getD []
  let b' := removeFirstByPk b pk keyStr
  if b' = [] then delA idx field else setA idx field b'

/-- `Table.Delete` (pkg/data/table.go, lines 572-606): read the file, fail if
the key is absent, remove the record from the record set and the cache, purge
it from the index bucket of each of its fields, and write the file. -/
def Delete (t : TableState) (key : HostValue) : TableState × Option TErr :=
  let keyStr := formatHost key
  let read := allocRecs t.file t.ctr
  match lookupA read.1 keyStr with
  | none => ({ t with ctr := read.2 }, some .notFound)
  | some r =>
    let all' := delA read.1 keyStr
    let idx' := r.foldl (fun idx p => deleteIdxField t.primaryKey keyStr idx p.1) t.indexes
    (writeRecords { t with cache := delA t.cache keyStr, indexes := idx', ctr := read.2 } all',
      none)

/-- The bucket of one field in an index map (a missing key reads as the nil
slice, as in Go). -/
def bucketOf (idx : List (String × List MRec)) (f : String) : List MRec :=
  (lookupA idx f).getD []

/-- Inner loop of the index rebuild: append `rec` to the bucket of each of its
fields whose value has a non-empty string payload. -/
def indexRecordFields (rec : MRec) (idx : List (String × List MRec)) :
    List (String × List MRec) :=
  rec.foldl
    (fun idx fv =>
      if getStringValue fv.2.data ≠ "" then setA idx fv.1 (bucketOf idx fv.1 ++ [rec])
      else idx)
    idx

/-- The index rebuild loop shared by `LoadIndexes` and `ResetAndLoadIndexes`:
for every record of the read set and every field whose value has a non-empty
string payload, append the record to that field's bucket. -/
def rebuildIndexes (rs : List (String × MRec)) (start : List (String × List MRec)) :
    List (String × List MRec) :=
  rs.foldl (fun idx kr => indexRecordFields kr.2 idx) start

/-- `Table.ResetAndLoadIndexes` (pkg/data/table.go, lines 111-131): clear the
indexes and rebuild them from the file.  `t.Records` and the cache are not
touched. -/
def ResetAndLoadIndexes (t : TableState) : TableState :=
  let read := allocRecs t.file t.ctr
  { t with indexes := rebuildIndexes read.1 [], ctr := read.2 }

/-! ## Transactions (pkg/data/transaction.go) -/

/-- `Transaction.Start`: read the file and deep-clone the records into the
snapshot (`proto.Clone` allocates fresh objects). -/
def txStart (t : TableState) : (List (String × MRec)) × TableState :=
  let read := allocRecs t.file t.ctr
  (read.1, { t with ctr := read.2 })

/-- `Transaction.Rollback`: write the snapshot back to the file.  The cache
and the indexes are not touched. -/
def txRollback (t : TableState) (snap : List (String × MRec)) : TableState :=
  writeRecords t snap

/-! ## Joins (pkg/data/joins.go) -/

/-- The four join policies. -/
inductive JoinType : Type
  | inner
  | left
  | right
  | full
  deriving DecidableEq, Repr

/-- `isEqual` from joins.go: nil operands compare false, otherwise the string
payloads are compared (a missing map field reads as nil). -/
def isEqualJ (v1 v2 : Option PVal) : Bool :=
  match v1, v2 with
  | some a, some b => getStringValue a.data == getStringValue b.data
  | _, _ => false

/-- `mergeRecords`: every field of the first record under prefix `t1.` and of
the second under `t2.`, with `GetStringValue` as the output projection. -/
def mergeRecordsJ (r1 r2 : Option MRec) : List (String × String) :=
  (match r1 with
   | some r => r.map (fun p => ("t1." ++ p.1, getStringValue p.2.data))
   | none => []) ++
  (match r2 with
   | some r => r.map (fun p => ("t2." ++ p.1, getStringValue p.2.data))
   | none => [])

/-- The rows one left record contributes in `JoinTables`: a row per matching
right record, plus an unmatched row for left and full-outer joins when no
right record matched. -/
def joinLeftRow (b2 : List MRec) (k1 k2 : String) (jt : JoinType) (r1 : MRec) :
    List (List (String × String)) :=
  let inner := b2.foldl
    (fun (p : List (List (String × String)) × Bool) r2 =>
      if isEqualJ (lookupA r1 k1) (lookupA r2 k2) then
        (p.1 ++ [mergeRecordsJ (some r1) (some r2)], true)
      else p)
    ([], false)
  inner.1 ++ (if inner.2 = false ∧ (jt = .left ∨ jt = .full) then
    [mergeRecordsJ (some r1) none] else [])

/-- `JoinTables` (pkg/data/joins.go, lines 21-76): rebuild both tables'
indexes, nested-loop over the buckets of the two key fields, and append the
unmatched right records for right and full-outer joins. -/
def JoinTables (t1 t2 : TableState) (k1 k2 : String) (jt : JoinType) :
    List (List (String × String)) :=
  let b1 := bucketOf (ResetAndLoadIndexes t1).indexes k1
  let b2 := bucketOf (ResetAndLoadIndexes t2).indexes k2
  let leftRows := b1.foldl (fun acc r1 => acc ++ joinLeftRow b2 k1 k2 jt r1) []
  let rightRows :=
    if jt = .right ∨ jt = .full then
      b2.foldl
        (fun acc r2 =>
          if b1.any (fun r1 => isEqualJ (lookupA r1 k1) (lookupA r2 k2)) then acc
          else acc ++ [mergeRecordsJ none (some r2)])
        []
    else []
  leftRows ++ rightRows

/-! ## Association-list lemmas -/

theorem lookupA_cons {α : Type} (p : String × α) (rest : List (String × α)) (k : String) :
    lookupA (p :: rest) k = if p.1 == k then some p.2 else lookupA rest k := by
  by_cases h : p.1 == k
  · simp [lookupA, List.find?_cons, h]
  · simp only [Bool.not_eq_true] at h
    simp [lookupA, List.find?_cons, h]

theorem lookupA_setA_self {α : Type} (l : List (String × α)) (k : String) (v : α) :
    lookupA (setA l k v) k = some v := by
  induction l with
  | nil => simp [setA, lookupA]
  | cons p rest ih =>
    by_cases h : p.1 == k
    · simp [setA, h, lookupA_cons]
    · simp only [Bool.not_eq_true] at h
      rw [setA, if_neg (by simp [h]), lookupA_cons, if_neg (by simp_all), ih]

theorem lookupA_setA_ne {α : Type} (l : List (String × α)) (k k' : String) (v : α)
    (h : k' ≠ k) : lookupA (setA l k v) k' = lookupA l k' := by
  induction l with
  | nil =>
    simp only [setA, lookupA_cons]
    rw [if_neg (by simp only [beq_iff_eq]; exact fun hh => h hh.symm)]
  | cons p rest ih =>
    by_cases hp : p.1 == k
    · have hpk : p.1 = k := by simpa using hp
      have h1 : ((k, v).1 == k') = false := by
        simp only [beq_eq_false_iff_ne, ne_eq]
        exact fun hh => h hh.symm
      have h2 : (p.1 == k') = false := by
        simp only [beq_eq_false_iff_ne, ne_eq, hpk]
        exact fun hh => h hh.symm
      rw [setA, if_pos hp, lookupA_cons, lookupA_cons, h1, h2]
      simp
    · rw [setA, if_neg (by simp_all), lookupA_cons, lookupA_cons, ih]

/-! ## Claim C1: integer primary keys through insert and select -/

/-- Claim C1: the engine evaluated at the spec's own boundary scenarios.
`Insert` keys the record map by the stored primary-key string — `"num:0"` for
the integer `0`, `"num:1"` for the integer `1` — while `Select` stringifies
its argument with `Sprintf`, producing `"0"`, `"1"` or `"1"` again for the
string key; every lookup therefore misses and returns a not-found error, even
though both inserts succeed and the records are present under their `num:`
keys. -/
theorem insert_select_integer_key_mismatch :
    (Insert (freshTable "id") [("id", .hInt 0)]).2 = none
      ∧ (Select (Insert (freshTable "id") [("id", .hInt 0)]).1 (.hInt 0)).2
          = .error .notFound
      ∧ lookupA (Insert (freshTable "id") [("id", .hInt 0)]).1.records "num:0"
          = some [("id", ⟨0, .vstr "num:0"⟩)]
      ∧ (Insert (freshTable "id") [("id", .hInt 1), ("name", .hStr "Ada")]).2 = none
      ∧ (Select (Insert (freshTable "id") [("id", .hInt 1), ("name", .hStr "Ada")]).1
          (.hInt 1)).2 = .error .notFound
      ∧ (Select (Insert (freshTable "id") [("id", .hInt 1), ("name", .hStr "Ada")]).1
          (.hStr "1")).2 = .error .notFound := by
  decide

/-! ## Claim C3: transaction rollback -/

/-- The table of the spec's rollback scenario: one record `⦃id:"k", v:1⦄`. -/
def rbTable : TableState := (Insert (freshTable "id") [("id", .hStr "k"), ("v", .hInt 1)]).1

/-- The snapshot taken by `Transaction.Start` on that table. -/
def rbSnap : List (String × MRec) := (txStart rbTable).1

/-- The update `update("k", ⦃v:2⦄)` performed inside the transaction. -/
def rbUpd : TableState × Option TErr :=
  Update (txStart rbTable).2 (.hStr "k") [("v", .hInt 2)]

/-- The table after `Rollback`. -/
def rbAfter : TableState := txRollback rbUpd.1 rbSnap

/-- Claim C3: in the spec's rollback scenario the update succeeds and the
rollback restores the file to the snapshot — but `select("k")` afterwards is
served from the cache, which the rollback never clears, so it returns the
updated record `⦃id:"k", v:2⦄` (with `v` a float, since `Update` converts
through `structpb.NewValue`) instead of the claimed `⦃id:"k", v:1⦄`. -/
theorem rollback_restores_file_but_select_hits_stale_cache :
    rbUpd.2 = none
      ∧ rbAfter.file = stripRecs rbSnap
      ∧ rbAfter.file = rbTable.file
      ∧ lookupA rbAfter.file "k" = some [("id", .vstr "k"), ("v", .vstr "num:1")]
      ∧ (Select rbAfter (.hStr "k")).2 = .ok [("id", .hStr "k"), ("v", .hFloat 2)]
      ∧ (Select rbAfter (.hStr "k")).2 ≠ .ok [("id", .hStr "k"), ("v", .hInt 1)] := by
  decide

/-! ## Claim C4: failed mutations and the pre-call state -/

/-- A table holding one record `⦃id:"k", a:"x"⦄`, freshly inserted. -/
def ixBase : TableState :=
  (Insert (freshTable "id") [("id", .hStr "k"), ("a", .hStr "x")]).1

/-- The same table with its indexes built (as `JoinTables` builds them, and
as `NewTable` builds them on load). -/
def ixTable : TableState := ResetAndLoadIndexes ixBase

/-- The failing update: the first field converts fine, the second is rejected
by the value codec.  The list order is one admissible iteration order of the
Go `updates` map. -/
def ixUpd : TableState × Option TErr :=
  Update ixTable (.hStr "k") [("a", .hStr "y"), ("b", .hBad)]

/-- Claim C4, counterexample.  The update fails on its second field, yet the
bucket of the first field has already been modified: the partially updated
record was appended to `indexes["a"]`.  The file, record map and cache are
still intact. -/
theorem update_error_mutates_index_counterexample :
    ixUpd.2 = some .badValue
      ∧ ixUpd.1.indexes ≠ ixTable.indexes
      ∧ (bucketOf ixUpd.1.indexes "a").length = (bucketOf ixTable.indexes "a").length + 1
      ∧ ixUpd.1.file = ixTable.file
      ∧ ixUpd.1.records = ixTable.records
      ∧ ixUpd.1.cache = ixTable.cache := by
  decide

/-- Claim C4 (amended): a failed `Insert`, `Update` or `Delete` leaves the
file, the record map and the cache exactly as they were; `Insert` and
`Delete` also leave the indexes unchanged, but an `Update` whose new field
value is rejected by the value codec may leave index buckets modified — the
partially updated record has been appended to the buckets of the fields
processed before the failing one. -/
theorem mutation_error_preserves_state_amended :
    (∀ (t : TableState) (rec : List (String × HostValue)) (e : TErr),
        (Insert t rec).2 = some e →
        (Insert t rec).1.file = t.file ∧ (Insert t rec).1.records = t.records
          ∧ (Insert t rec).1.cache = t.cache ∧ (Insert t rec).1.indexes = t.indexes)
      ∧ (∀ (t : TableState) (k : HostValue) (u : List (String × HostValue)) (e : TErr),
          (Update t k u).2 = some e →
          (Update t k u).1.file = t.file ∧ (Update t k u).1.records = t.records
            ∧ (Update t k u).1.cache = t.cache)
      ∧ (∀ (t : TableState) (k : HostValue) (e : TErr),
          (Delete t k).2 = some e →
          (Delete t k).1.file = t.file ∧ (Delete t k).1.records = t.records
            ∧ (Delete t k).1.cache = t.cache ∧ (Delete t k).1.indexes = t.indexes) := by
  refine ⟨fun t rec e h => ?_, fun t k u e h => ?_, fun t k e h => ?_⟩
  · cases hm : lookupA rec t.primaryKey with
    | none => simp [Insert, hm]
    | some pkv =>
      cases htp : toProtoValue (strWrap pkv) with
      | error u => simp [Insert, hm, htp]
      | ok pkd =>
        by_cases hnil : getStringValue pkd = "<nil>" ∨ getStringValue pkd = ""
        · simp [Insert, hm, htp, hnil]
        · cases hb : buildProtoRecord rec (allocRecs t.file t.ctr).2 with
          | error u => simp [Insert, hm, htp, hnil, hb]
          | ok prc =>
            obtain ⟨pr, c2⟩ := prc
            by_cases hdup :
                (lookupA (allocRecs t.file t.ctr).1 (getStringValue pkd)).isSome = true
            · simp [Insert, hm, htp, hnil, hb, hdup]
            · exfalso
              simp [Insert, hm, htp, hnil, hb, hdup] at h
  · cases hm : lookupA (allocRecs t.file t.ctr).1 (formatHost k) with
    | none => simp [Update, hm]
    | some ex =>
      by_cases herr : (updateFields u ex t.indexes (allocRecs t.file t.ctr).2).2.2.2 = true
      · simp [Update, hm, herr]
      · exfalso
        simp [Update, hm, herr] at h
  · cases hm : lookupA (allocRecs t.file t.ctr).1 (formatHost k) with
    | none => simp [Delete, hm]
    | some r =>
      exfalso
      simp [Delete, hm] at h

/-- Claim C4, witness: the amended preservation applied to the failing update
of the counterexample state. -/
theorem mutation_error_preserves_state_amended_witness :
    (Update ixTable (.hStr "k") [("a", .hStr "y"), ("b", .hBad)]).2 = some .badValue
      ∧ ((Update ixTable (.hStr "k") [("a", .hStr "y"), ("b", .hBad)]).1.file = ixTable.file
        ∧ (Update ixTable (.hStr "k") [("a", .hStr "y"), ("b", .hBad)]).1.records
            = ixTable.records
        ∧ (Update ixTable (.hStr "k") [("a", .hStr "y"), ("b", .hBad)]).1.cache
            = ixTable.cache) :=
  ⟨by decide,
    mutation_error_preserves_state_amended.2.1 ixTable (.hStr "k")
      [("a", .hStr "y"), ("b", .hBad)] .badValue (by decide)⟩

/-! ## Claim C5: records versus index buckets -/

theorem allocRecs_mem (f : FileRecs) (k : String) (fr : FileRec) (h : (k, fr) ∈ f) :
    ∀ c : ℕ, ∃ mr, (k, mr) ∈ (allocRecs f c).1 ∧ stripRec mr = fr := by
  induction f with
  | nil => cases h
  | cons p rest ih =>
    intro c
    rcases List.mem_cons.mp h with rfl | hmem
    · exact ⟨(allocRec fr c).1, List.mem_cons_self _ _, stripRec_allocRec fr c⟩
    · obtain ⟨mr, hm, hs⟩ := ih hmem (allocRec p.2 c).2
      exact ⟨mr, by cases p; exact List.mem_cons_of_mem _ hm, hs⟩

theorem bucketOf_step_mono (idx : List (String × List MRec)) (g f : String)
    (b : List MRec) (x : MRec) (hx : x ∈ bucketOf idx f) : x ∈ bucketOf (setA idx g (bucketOf idx g ++ b)) f := by
  by_cases hfg : f = g
  · subst hfg
    rw [bucketOf, lookupA_setA_self]
    exact List.mem_append_left _ hx
  · rwa [bucketOf, lookupA_setA_ne _ _ _ _ hfg]

theorem indexRecordFields_mono (rec : MRec) :
    ∀ (fields : List (String × PVal)) (idx : List (String × List MRec)) (f : String)
      (x : MRec), x ∈ bucketOf idx f →
      x ∈ bucketOf (fields.foldl
        (fun idx fv =>
          if getStringValue fv.2.data ≠ "" then setA idx fv.1 (bucketOf idx fv.1 ++ [rec])
          else idx) idx) f := by
  intro fields
  induction fields with
  | nil => intro idx f x hx; exact hx
  | cons fv rest ih =>
    intro idx f x hx
    rw [List.foldl_cons]
    by_cases hc : getStringValue fv.2.data ≠ ""
    · rw [if_pos hc]
      exact ih _ f x (bucketOf_step_mono idx fv.1 f [rec] x hx)
    · rw [if_neg hc]
      exact ih _ f x hx

theorem indexRecordFields_adds (rec : MRec) :
    ∀ (fields : List (String × PVal)) (idx : List (String × List MRec)) (f : String)
      (pv : PVal), (f, pv) ∈ fields → getStringValue pv.data ≠ "" →
      rec ∈ bucketOf (fields.foldl
        (fun idx fv =>
          if getStringValue fv.2.data ≠ "" then setA idx fv.1 (bucketOf idx fv.1 ++ [rec])
          else idx) idx) f := by
  intro fields
  induction fields with
  | nil => intro idx f pv h; cases h
  | cons fv rest ih =>
    intro idx f pv hmem hne
    rw [List.foldl_cons]
    rcases List.mem_cons.mp hmem with heq | htail
    · have hf : fv.1 = f := by rw [← heq]
      have hd : fv.2 = pv := by rw [← heq]
      rw [if_pos (by rw [hd]; exact hne)]
      apply indexRecordFields_mono
      rw [hf]
      rw [bucketOf, lookupA_setA_self]
      simp
    · by_cases hc : getStringValue fv.2.data ≠ ""
      · rw [if_pos hc]; exact ih _ f pv htail hne
      · rw [if_neg hc]; exact ih _ f pv htail hne

theorem rebuildIndexes_mono (rs : List (String × MRec)) :
    ∀ (start : List (String × List MRec)) (f : String) (x : MRec),
      x ∈ bucketOf start f → x ∈ bucketOf (rebuildIndexes rs start) f := by
  induction rs with
  | nil => intro start f x hx; exact hx
  | cons kr rest ih =>
    intro start f x hx
    rw [rebuildIndexes, List.foldl_cons]
    exact ih _ f x (indexRecordFields_mono kr.2 kr.2 start f x hx)

theorem rebuildIndexes_adds (rs : List (String × MRec)) :
    ∀ (start : List (String × List MRec)) (k : String) (mr : MRec) (f : String) (pv : PVal),
      (k, mr) ∈ rs → (f, pv) ∈ mr → getStringValue pv.data ≠ "" →
      mr ∈ bucketOf (rebuildIndexes rs start) f := by
  induction rs with
  | nil => intro _ _ _ _ _ h; cases h
  | cons kr rest ih =>
    intro start k mr f pv hmem hfv hne
    rw [rebuildIndexes, List.foldl_cons]
    rcases List.mem_cons.mp hmem with heq | htail
    · have hkr : kr.2 = mr := by rw [← heq]
      have hadds : mr ∈ bucketOf (indexRecordFields kr.2 start) f := by
        rw [hkr]
        exact indexRecordFields_adds mr mr start f pv hfv hne
      have hres := rebuildIndexes_mono rest (indexRecordFields kr.2 start) f mr hadds
      rw [rebuildIndexes] at hres
      exact hres
    · exact ih _ k mr f pv htail hfv hne

/-- Claim C5, counterexample.  A successful `Insert` into a fresh table — no
index maintenance happens on that path — leaves the record in the record map
with every index bucket empty, so the inserted record is in `records` but in
no `indexes[f]`. -/
theorem insert_record_not_indexed_counterexample :
    (Insert (freshTable "id") [("id", .hStr "k"), ("a", .hStr "x")]).2 = none
      ∧ lookupA (Insert (freshTable "id") [("id", .hStr "k"), ("a", .hStr "x")]).1.records "k"
          = some [("id", ⟨0, .vstr "k"⟩), ("a", ⟨1, .vstr "x"⟩)]
      ∧ (Insert (freshTable "id") [("id", .hStr "k"), ("a", .hStr "x")]).1.indexes = [] := by
  decide

/-- Claim C5 (amended): a successful `Insert` adds the record to the record
map but performs no index maintenance at all (the indexes are returned
unchanged by every `Insert`); the claimed invariant is only established by
the rebuild (`ResetAndLoadIndexes`), after which every record of the file
appears in the bucket of each of its fields whose value has a non-empty
string payload. -/
theorem index_invariant_amended :
    (∀ (t : TableState) (rec : List (String × HostValue)),
        (Insert t rec).1.indexes = t.indexes)
      ∧ (∀ (t : TableState) (k : String) (fr : FileRec) (f : String) (v : VData),
          (k, fr) ∈ t.file → (f, v) ∈ fr → getStringValue v ≠ "" →
          ∃ r ∈ bucketOf (ResetAndLoadIndexes t).indexes f, stripRec r = fr) := by
  constructor
  · intro t rec
    cases hm : lookupA rec t.primaryKey with
    | none => simp [Insert, hm]
    | some pkv =>
      cases htp : toProtoValue (strWrap pkv) with
      | error u => simp [Insert, htp, hm]
      | ok pkd =>
        by_cases hnil : getStringValue pkd = "<nil>" ∨ getStringValue pkd = ""
        · simp [Insert, hm, htp, hnil]
        · cases hb : buildProtoRecord rec (allocRecs t.file t.ctr).2 with
          | error u => simp [Insert, hm, htp, hnil, hb]
          | ok prc =>
            obtain ⟨pr, c2⟩ := prc
            by_cases hdup :
                (lookupA (allocRecs t.file t.ctr).1 (getStringValue pkd)).isSome = true
            · simp [Insert, hm, htp, hnil, hb, hdup]
            · simp [Insert, hm, htp, hnil, hb, hdup, writeRecords]
  · intro t k fr f v hfile hfv hne
    obtain ⟨mr, hmem, hstrip⟩ := allocRecs_mem t.file k fr hfile t.ctr
    have hfv' : (f, v) ∈ stripRec mr := hstrip ▸ hfv
    obtain ⟨p, hp, hpe⟩ := List.mem_map.mp hfv'
    have hf1 : p.1 = f := congrArg Prod.fst hpe
    have hdata : p.2.data = v := congrArg Prod.snd hpe
    refine ⟨mr, ?_, hstrip⟩
    show mr ∈ bucketOf (rebuildIndexes (allocRecs t.file t.ctr).1 []) f
    exact rebuildIndexes_adds (allocRecs t.file t.ctr).1 [] k mr f p.2
      hmem (by rw [← hf1]; exact hp) (by rw [hdata]; exact hne)

/-- Claim C5, witness: the amended statement at a concrete table — the insert
leaves the indexes unchanged, and after the rebuild the record of the file is
in the buckets of both of its fields. -/
theorem index_invariant_amended_witness :
    (Insert (freshTable "id") [("id", .hStr "k"), ("a", .hStr "x")]).1.indexes
        = (freshTable "id").indexes
      ∧ (∃ r ∈ bucketOf (ResetAndLoadIndexes ixBase).indexes "a",
          stripRec r = [("id", .vstr "k"), ("a", .vstr "x")]) :=
  ⟨index_invariant_amended.1 (freshTable "id") [("id", .hStr "k"), ("a", .hStr "x")],
    index_invariant_amended.2 ixBase "k" [("id", .vstr "k"), ("a", .vstr "x")] "a"
      (.vstr "x") (by decide) (by decide) (by decide)⟩

/-! ## Claim C7: left joins -/

theorem foldl_append_eq_join {α β : Type} (f : α → List β) (l : List α) :
    ∀ init : List β, l.foldl (fun acc x => acc ++ f x) init = init ++ (l.map f).flatten := by
  induction l with
  | nil => intro init; simp
  | cons a rest ih =>
    intro init
    rw [List.foldl_cons, ih, List.map_cons, List.flatten_cons, List.append_assoc]

theorem flatten_map_singleton {α β : Type} (g : α → β) (l : List α) :
    (l.map (fun x => [g x])).flatten = l.map g := by
  induction l with
  | nil => rfl
  | cons a rest ih => simp [ih]

theorem joinLeftRow_nil (k1 k2 : String) (r1 : MRec) :
    joinLeftRow [] k1 k2 .left r1 = [mergeRecordsJ (some r1) none] := by
  simp [joinLeftRow]

theorem joinLeftRow_unmatched (b2 : List MRec) (k1 k2 : String) (r1 : MRec)
    (h : ∀ r2 ∈ b2, isEqualJ (lookupA r1 k1) (lookupA r2 k2) = false) :
    joinLeftRow b2 k1 k2 .left r1 = [mergeRecordsJ (some r1) none] := by
  have hfold : b2.foldl
      (fun (p : List (List (String × String)) × Bool) r2 =>
        if isEqualJ (lookupA r1 k1) (lookupA r2 k2) then
          (p.1 ++ [mergeRecordsJ (some r1) (some r2)], true)
        else p)
      ([], false) = ([], false) := by
    induction b2 with
    | nil => rfl
    | cons r2 rest ih =>
      rw [List.foldl_cons, if_neg (by rw [h r2 (List.mem_cons_self _ _)]; exact
        Bool.false_ne_true)]
      exact ih (fun x hx => h x (List.mem_cons_of_mem _ hx))
  rw [joinLeftRow]
  simp only [hfold]
  simp

/-- The left table of the counterexample: one record whose join-key field
holds a number, which the index rebuild skips. -/
def jnumTable : TableState :=
  (Insert (freshTable "id") [("id", .hStr "r1"), ("u", .hFloat 5)]).1

/-- Claim C7, counterexample.  A left join of a one-record table against an
empty right table returns no rows at all — not one row per left record —
because the join iterates the rebuilt index bucket of the key field, and the
record's key value is a number, whose string payload is empty, so it was
never indexed. -/
theorem left_join_skips_unindexed_record_counterexample :
    JoinTables jnumTable (freshTable "uid") "u" "uid" .left = []
      ∧ jnumTable.file.length = 1 := by
  decide

/-- Claim C7 (amended): a left join with an empty right table returns exactly
one merged row per left record *in the rebuilt index bucket of the key field*
(a record appears there exactly when its key-field value has a non-empty
string payload), each row holding every field of that record under the prefix
`t1.` through its string projection and nothing else; and in general a left
join emits the `(rec1, ∅)` row for each such indexed left record that matches
no record of the right bucket. -/
theorem left_join_amended :
    (∀ (t1 t2 : TableState) (k1 k2 : String), t2.file = [] →
        JoinTables t1 t2 k1 k2 .left
          = (bucketOf (ResetAndLoadIndexes t1).indexes k1).map
              (fun r => mergeRecordsJ (some r) none))
      ∧ (∀ r : MRec, mergeRecordsJ (some r) none
          = r.map (fun p => ("t1." ++ p.1, getStringValue p.2.data)))
      ∧ (∀ (t1 t2 : TableState) (k1 k2 : String) (r1 : MRec),
          r1 ∈ bucketOf (ResetAndLoadIndexes t1).indexes k1 →
          (∀ r2 ∈ bucketOf (ResetAndLoadIndexes t2).indexes k2,
            isEqualJ (lookupA r1 k1) (lookupA r2 k2) = false) →
          mergeRecordsJ (some r1) none ∈ JoinTables t1 t2 k1 k2 .left) := by
  refine ⟨fun t1 t2 k1 k2 h2 => ?_, fun r => by simp [mergeRecordsJ], fun t1 t2 k1 k2 r1 hb1 hnm => ?_⟩
  · have hbucket2 : bucketOf (ResetAndLoadIndexes t2).indexes k2 = [] := by
      rw [ResetAndLoadIndexes]
      simp only [h2]
      rfl
    rw [JoinTables]
    simp only [hbucket2]
    rw [if_neg (by rintro (h | h) <;> cases h)]
    rw [foldl_append_eq_join]
    simp only [List.nil_append, List.append_nil]
    have hmap : (bucketOf (ResetAndLoadIndexes t1).indexes k1).map (joinLeftRow [] k1 k2 .left)
        = (bucketOf (ResetAndLoadIndexes t1).indexes k1).map
            (fun r => [mergeRecordsJ (some r) none]) :=
      List.map_congr_left (fun r _ => joinLeftRow_nil k1 k2 r)
    rw [hmap, flatten_map_singleton]
  · rw [JoinTables]
    apply List.mem_append_left
    rw [foldl_append_eq_join]
    simp only [List.nil_append]
    apply List.mem_flatten.mpr
    refine ⟨joinLeftRow (bucketOf (ResetAndLoadIndexes t2).indexes k2) k1 k2 .left r1,
      List.mem_map_of_mem _ hb1, ?_⟩
    rw [joinLeftRow_unmatched _ _ _ _ hnm]
    exact List.mem_singleton.mpr rfl

/-- Claim C7, witness: the amended statement on the spec's own join scenario
restricted to an empty right table — a left table with records `⦃id:1,
name:"A"⦄`-style string keys, joined against an empty table. -/
theorem left_join_amended_witness :
    JoinTables ixTable (freshTable "uid") "a" "uid" JoinType.left
        = (bucketOf (ResetAndLoadIndexes ixTable).indexes "a").map
            (fun r => mergeRecordsJ (some r) none)
      ∧ (bucketOf (ResetAndLoadIndexes ixTable).indexes "a").length = 1 :=
  ⟨left_join_amended.1 ixTable (freshTable "uid") "a" "uid" (by decide), by decide⟩

/-! ## Query planning and execution (pkg/data/query.go) -/

/-- A query: filters, optional sort field, limit and offset.  Go's `int`
fields are modelled as `ℕ`; the executor only ever distinguishes `> 0`, so a
negative Go value behaves exactly like `0`. -/
structure Query : Type where
  filters : List (String × HostValue)
  sortBy : String
  limit : ℕ
  offset : ℕ
  deriving Repr

/-- An execution plan (`ExecutionPlan`). -/
structure ExecutionPlan : Type where
  indexToUse : String
  filters : List (String × HostValue)
  sortBy : String
  limit : ℕ
  offset : ℕ
  deriving Repr

/-- One step of `selectBestIndex`'s loop over the filter fields.  Go computes
`float64(len(index)) / float64(len(t.Records))`; when the table is empty that
division yields `+Inf` or `NaN`, neither of which is `<` any previous best,
so the `0 < records.length` guard encodes the float comparison exactly. -/
def sbiStep (t : TableState) (acc : String × ℚ) (p : String × HostValue) : String × ℚ :=
  match lookupA t.indexes p.1 with
  | none => acc
  | some idx =>
    if 0 < t.records.length ∧ (idx.length : ℚ) / t.records.length < acc.2 then
      (p.1, (idx.length : ℚ) / t.records.length)
    else acc

/-- `selectBestIndex` (pkg/data/query.go, lines 30-46): best selectivity
starts at `1.0` with no index; each indexed filter field with strictly
smaller selectivity replaces the best. -/
def selectBestIndex (t : TableState) (filters : List (String × HostValue)) : String :=
  (filters.foldl (sbiStep t) ("", 1)).1

/-- `match` (pkg/data/query.go): a record passes when every filter field
exists and compares `Equal` to the converted filter value; a conversion
failure fails the record. -/
def matchRec (r : MRec) (filters : List (String × HostValue)) : Bool :=
  filters.all (fun p =>
    match structpbNewValue p.2 with
    | .error _ => false
    | .ok pv =>
      match lookupA r p.1 with
      | none => false
      | some v => EqualV v.data pv)

/-- The number sort key: `Fields[f].GetNumberValue()`, with a missing field
reading as nil, hence `0`. -/
def numOf (r : MRec) (f : String) : ℚ :=
  match lookupA r f with
  | some v => getNumberValue v.data
  | none => 0

/-- The string sort key: `Fields[f].GetStringValue()`. -/
def strOf (r : MRec) (f : String) : String :=
  match lookupA r f with
  | some v => getStringValue v.data
  | none => ""

/-- `executePlan` (pkg/data/query.go, lines 62-106): scan the chosen index
bucket, or the whole record map when no index was chosen; filter; sort by the
number projection of the sort field, else by the string projection of the
primary key (Go's `sort.Slice` is an arbitrary unstable sort; a deterministic
merge sort stands in for it); apply offset then limit. -/
def executePlan (t : TableState) (plan : ExecutionPlan) : List MRec :=
  let base := if plan.indexToUse ≠ "" then bucketOf t.indexes plan.indexToUse
    else t.records.map (·.2)
  let results := base.filter (fun r => matchRec r plan.filters)
  let sorted :=
    if plan.sortBy ≠ "" then results.mergeSort (fun a b => numOf a plan.sortBy ≤ numOf b plan.sortBy)
    else results.mergeSort (fun a b => strOf a t.primaryKey ≤ strOf b t.primaryKey)
  let afterOff :=
    if 0 < plan.offset then (if sorted.length ≤ plan.offset then [] else sorted.drop plan.offset)
    else sorted
  if 0 < plan.limit ∧ plan.limit < afterOff.length then afterOff.take plan.limit else afterOff

/-- `generateExecutionPlan`: pick the best index and copy the query over. -/
def generateExecutionPlan (t : TableState) (q : Query) : ExecutionPlan :=
  { indexToUse := selectBestIndex t q.filters, filters := q.filters, sortBy := q.sortBy,
    limit := q.limit, offset := q.offset }

/-- `Table.Query`: plan, then execute. -/
def runQuery (t : TableState) (q : Query) : List MRec :=
  executePlan t (generateExecutionPlan t q)

/-- The filter/sort/offset/limit pipeline of the executor, abstracted over
the scanned base list; `executePlan` is exactly this pipeline applied to the
bucket it scans. -/
def postProcess (t : TableState) (q : Query) (base : List MRec) : List MRec :=
  let results := base.filter (fun r => matchRec r q.filters)
  let sorted :=
    if q.sortBy ≠ "" then results.mergeSort (fun a b => numOf a q.sortBy ≤ numOf b q.sortBy)
    else results.mergeSort (fun a b => strOf a t.primaryKey ≤ strOf b t.primaryKey)
  let afterOff :=
    if 0 < q.offset then (if sorted.length ≤ q.offset then [] else sorted.drop q.offset)
    else sorted
  if 0 < q.limit ∧ q.limit < afterOff.length then afterOff.take q.limit else afterOff

/-- No filter field owns an index of selectivity below `1`. -/
def noGoodIndex (t : TableState) (ps : List (String × HostValue)) : Prop :=
  ∀ p ∈ ps, ∀ b, lookupA t.indexes p.1 = some b →
    ¬(0 < t.records.length ∧ (b.length : ℚ) / t.records.length < 1)

/-- `acc` names an indexed filter field whose selectivity is below `1` and
minimal among the indexed filter fields seen so far. -/
def bestFor (t : TableState) (ps : List (String × HostValue)) (acc : String × ℚ) : Prop :=
  (∃ p ∈ ps, p.1 = acc.1)
    ∧ ∃ b, lookupA t.indexes acc.1 = some b
        ∧ 0 < t.records.length
        ∧ acc.2 = (b.length : ℚ) / t.records.length
        ∧ acc.2 < 1
        ∧ ∀ p ∈ ps, ∀ b', lookupA t.indexes p.1 = some b' →
            acc.2 ≤ (b'.length : ℚ) / t.records.length

theorem noGoodIndex_append_skip (t : TableState) (ps : List (String × HostValue))
    (p : String × HostValue) (hng : noGoodIndex t ps)
    (hp : ∀ b, lookupA t.indexes p.1 = some b →
      ¬(0 < t.records.length ∧ (b.length : ℚ) / t.records.length < 1)) :
    noGoodIndex t (ps ++ [p]) := by
  intro q hq b hb
  rcases List.mem_append.mp hq with h | h
  · exact hng q h b hb
  · rw [List.mem_singleton.mp h] at hb
    exact hp b hb

theorem bestFor_append_skip (t : TableState) (ps : List (String × HostValue))
    (p : String × HostValue) (acc : String × ℚ) (hbf : bestFor t ps acc)
    (hp : ∀ b, lookupA t.indexes p.1 = some b →
      acc.2 ≤ (b.length : ℚ) / t.records.length) :
    bestFor t (ps ++ [p]) acc := by
  obtain ⟨⟨q, hq, hqe⟩, b, hb, hrec, hsel, hlt, hmin⟩ := hbf
  refine ⟨⟨q, List.mem_append_left _ hq, hqe⟩, b, hb, hrec, hsel, hlt, ?_⟩
  intro r hr b' hb'
  rcases List.mem_append.mp hr with h | h
  · exact hmin r h b' hb'
  · rw [List.mem_singleton.mp h] at hb'
    exact hp b' hb'

theorem sbi_invariant (t : TableState) :
    ∀ (fs ps : List (String × HostValue)) (acc : String × ℚ),
      ((acc = ("", 1) ∧ noGoodIndex t ps) ∨ bestFor t ps acc) →
      ((fs.foldl (sbiStep t) acc = ("", 1) ∧ noGoodIndex t (ps ++ fs))
        ∨ bestFor t (ps ++ fs) (fs.foldl (sbiStep t) acc)) := by
  intro fs
  induction fs with
  | nil => intro ps acc h; simpa using h
  | cons p rest ih =>
    intro ps acc h
    rw [List.foldl_cons]
    have hstep : ((sbiStep t acc p = ("", 1) ∧ noGoodIndex t (ps ++ [p]))
        ∨ bestFor t (ps ++ [p]) (sbiStep t acc p)) := by
      cases hl : lookupA t.indexes p.1 with
      | none =>
        have hs : sbiStep t acc p = acc := by rw [sbiStep, hl]
        rw [hs]
        rcases h with ⟨ha, hng⟩ | hbf
        · exact Or.inl ⟨ha, noGoodIndex_append_skip t ps p hng
            (fun b hb => absurd hb (by rw [hl]; exact fun hh => Option.noConfusion hh))⟩
        · exact Or.inr (bestFor_append_skip t ps p acc hbf
            (fun b hb => absurd hb (by rw [hl]; exact fun hh => Option.noConfusion hh)))
      | some idx =>
        by_cases hc : 0 < t.records.length
            ∧ (idx.length : ℚ) / t.records.length < acc.2
        · have hs : sbiStep t acc p
              = (p.1, (idx.length : ℚ) / t.records.length) := by
            simp only [sbiStep, hl]
            rw [if_pos hc]
          rw [hs]
          refine Or.inr ⟨⟨p, List.mem_append_right _ (List.mem_singleton.mpr rfl), rfl⟩,
            idx, hl, hc.1, rfl, ?_, ?_⟩
          · rcases h with ⟨ha, _⟩ | hbf
            · have haq : acc.2 = 1 := by rw [ha]
              calc (idx.length : ℚ) / t.records.length < acc.2 := hc.2
                _ = 1 := haq
            · obtain ⟨_, b, hb, hrec, hsel, hlt, hmin⟩ := hbf
              exact lt_trans hc.2 hlt
          · intro r hr b' hb'
            rcases List.mem_append.mp hr with hmem | hmem
            · rcases h with ⟨ha, hng⟩ | hbf
              · have hge : ¬((b'.length : ℚ) / t.records.length < 1) := by
                  intro hlt1
                  exact hng r hmem b' hb' ⟨hc.1, hlt1⟩
                have h1 : (1 : ℚ) ≤ (b'.length : ℚ) / t.records.length := not_lt.mp hge
                have h2 : (idx.length : ℚ) / t.records.length < 1 := by
                  have haq : acc.2 = 1 := by rw [ha]
                  exact haq ▸ hc.2
                exact le_of_lt (lt_of_lt_of_le h2 h1)
              · obtain ⟨_, b, hb, hrec, hsel, hlt, hmin⟩ := hbf
                exact le_of_lt (lt_of_lt_of_le hc.2 (hsel ▸ hmin r hmem b' hb'))
            · rw [List.mem_singleton.mp hmem] at hb'
              rw [hl, Option.some.injEq] at hb'
              rw [← hb']
        · have hs : sbiStep t acc p = acc := by
            simp only [sbiStep, hl]
            rw [if_neg hc]
          rw [hs]
          rcases h with ⟨ha, hng⟩ | hbf
          · refine Or.inl ⟨ha, noGoodIndex_append_skip t ps p hng ?_⟩
            intro b hb hcontra
            rw [hl, Option.some.injEq] at hb
            subst hb
            apply hc
            have haq : acc.2 = 1 := by rw [ha]
            rw [haq]
            exact hcontra
          · refine Or.inr (bestFor_append_skip t ps p acc hbf ?_)
            intro b hb
            rw [hl, Option.some.injEq] at hb
            subst hb
            obtain ⟨_, bb, hbb, hrec, hsel, hlt, hmin⟩ := hbf
            by_contra hcon
            exact hc ⟨hrec, lt_of_not_le hcon⟩
    have := ih (ps ++ [p]) (sbiStep t acc p) hstep
    simpa using this

/-! ## Claim C8: selectivity-driven index selection -/

/-- Claim C8: the planner's chosen index and the executor's scan.  Either no
filter field has an index of selectivity `|indexes[f]| / |records|` strictly
below the default `1.0` and no index is chosen, or the chosen field is a
filter field whose index selectivity is below `1` and minimal among all
indexed filter fields; and the query result is the filter/sort/offset/limit
pipeline applied to the chosen index bucket alone (or to the whole record map
when no index was chosen). -/
theorem query_index_selection (t : TableState) (q : Query)
    (hne : ∀ p ∈ q.filters, p.1 ≠ "") :
    ((selectBestIndex t q.filters = "" ∧ noGoodIndex t q.filters)
      ∨ (selectBestIndex t q.filters ≠ ""
        ∧ (∃ p ∈ q.filters, p.1 = selectBestIndex t q.filters)
        ∧ ∃ b, lookupA t.indexes (selectBestIndex t q.filters) = some b
            ∧ 0 < t.records.length
            ∧ (b.length : ℚ) / t.records.length < 1
            ∧ ∀ p ∈ q.filters, ∀ b', lookupA t.indexes p.1 = some b' →
                (b.length : ℚ) / t.records.length ≤ (b'.length : ℚ) / t.records.length))
      ∧ runQuery t q
          = postProcess t q (if selectBestIndex t q.filters = ""
              then t.records.map (·.2) else bucketOf t.indexes (selectBestIndex t q.filters)) := by
  constructor
  · have hinv := sbi_invariant t q.filters [] ("", 1)
      (Or.inl ⟨rfl, fun p hp => absurd hp (List.not_mem_nil p)⟩)
    rw [List.nil_append] at hinv
    rcases hinv with ⟨hres, hng⟩ | hbf
    · left
      constructor
      · rw [selectBestIndex, hres]
      · exact hng
    · right
      obtain ⟨⟨p, hp, hpe⟩, b, hb, hrec, hsel, hlt, hmin⟩ := hbf
      have hch : selectBestIndex t q.filters
          = (q.filters.foldl (sbiStep t) ("", 1)).1 := rfl
      refine ⟨?_, ⟨p, hp, by rw [hch, ← hpe]⟩, b, by rw [hch]; exact hb, hrec,
        hsel ▸ hlt, ?_⟩
      · rw [hch, ← hpe]
        exact hne p hp
      · intro r hr b' hb'
        exact hsel ▸ hmin r hr b' hb'
  · by_cases hch : selectBestIndex t q.filters = ""
    · simp only [runQuery, generateExecutionPlan, executePlan, postProcess, hch]
      simp
    · simp only [runQuery, generateExecutionPlan, executePlan, postProcess]
      rw [if_pos hch, if_neg hch]

/-- A two-record table whose field `a` appears on only one record: after the
rebuild, the bucket of `a` has selectivity `1/2` while `id` has `2/2`. -/
def qTable : TableState :=
  ResetAndLoadIndexes
    (Insert (Insert (freshTable "id") [("id", .hStr "r1"), ("a", .hStr "x")]).1
      [("id", .hStr "r2")]).1

/-- The witness query: one filter on the selective field `a`. -/
def qEx : Query := { filters := [("a", .hStr "x")], sortBy := "", limit := 0, offset := 0 }

/-- Claim C8, witness: the planner/executor characterization applied to a
concrete two-record table with a filter on its selective field. -/
theorem query_index_selection_witness :
    (∀ p ∈ qEx.filters, p.1 ≠ "")
      ∧ (((selectBestIndex qTable qEx.filters = "" ∧ noGoodIndex qTable qEx.filters)
          ∨ (selectBestIndex qTable qEx.filters ≠ ""
            ∧ (∃ p ∈ qEx.filters, p.1 = selectBestIndex qTable qEx.filters)
            ∧ ∃ b, lookupA qTable.indexes (selectBestIndex qTable qEx.filters) = some b
                ∧ 0 < qTable.records.length
                ∧ (b.length : ℚ) / qTable.records.length < 1
                ∧ ∀ p ∈ qEx.filters, ∀ b', lookupA qTable.indexes p.1 = some b' →
                    (b.length : ℚ) / qTable.records.length
                      ≤ (b'.length : ℚ) / qTable.records.length))
        ∧ runQuery qTable qEx
            = postProcess qTable qEx (if selectBestIndex qTable qEx.filters = ""
                then qTable.records.map (·.2)
                else bucketOf qTable.indexes (selectBestIndex qTable qEx.filters))) :=
  ⟨by decide, query_index_selection qTable qEx (by decide)⟩

/-! ## Crypto (pkg/utils/security.go)

Bytes are naturals below 256.  AES itself is library code: the CTR keystream
under the process's fixed 32-byte key is modelled as an arbitrary function of
the IV and the stream position, which is exactly what `Encrypt` and `Decrypt`
share — both build `cipher.NewCTR(block, iv)` from the same block cipher and
the same IV.  Base64 (the standard alphabet with padding, as
`base64.StdEncoding`) is modelled concretely. -/

/-- The standard base64 alphabet. -/
def b64Chars : List Char :=
  "ABCDEFGHIJKLMNOPQRSTUVWXYZabcdefghijklmnopqrstuvwxyz0123456789+/".data

/-- The alphabet character of a 6-bit group. -/
def b64Char (n : ℕ) : Char := b64Chars.getD n '='

/-- The 6-bit group of an alphabet character, if any. -/
def b64Index (c : Char) : Option ℕ := b64Chars.findIdx? (fun x => x == c)

/-- `base64.StdEncoding` encoding: three bytes per four characters, the final
group padded with `=`. -/
def base64EncodeBytes : List ℕ → List Char
  | [] => []
  | [b0] => [b64Char (b0 / 4), b64Char (b0 % 4 * 16), '=', '=']
  | [b0, b1] => [b64Char (b0 / 4), b64Char (b0 % 4 * 16 + b1 / 16), b64Char (b1 % 16 * 4), '=']
  | b0 :: b1 :: b2 :: rest =>
    b64Char (b0 / 4) :: b64Char (b0 % 4 * 16 + b1 / 16) :: b64Char (b1 % 16 * 4 + b2 / 64)
      :: b64Char (b2 % 64) :: base64EncodeBytes rest

/-- `base64.StdEncoding` decoding: four characters per group, padding only in
the final group, any non-alphabet character elsewhere an error, and a length
that is not a multiple of four an error. -/
def base64DecodeChars : List Char → Option (List ℕ)
  | [] => some []
  | c0 :: c1 :: c2 :: c3 :: rest =>
    if rest = [] then
      if c2 = '=' ∧ c3 = '=' then do
        let n0 ← b64Index c0
        let n1 ← b64Index c1
        some [n0 * 4 + n1 / 16]
      else if c3 = '=' then do
        let n0 ← b64Index c0
        let n1 ← b64Index c1
        let n2 ← b64Index c2
        some [n0 * 4 + n1 / 16, n1 % 16 * 16 + n2 / 4]
      else do
        let n0 ← b64Index c0
        let n1 ← b64Index c1
        let n2 ← b64Index c2
        let n3 ← b64Index c3
        some [n0 * 4 + n1 / 16, n1 % 16 * 16 + n2 / 4, n2 % 4 * 64 + n3]
    else do
      let n0 ← b64Index c0
      let n1 ← b64Index c1
      let n2 ← b64Index c2
      let n3 ← b64Index c3
      let tail ← base64DecodeChars rest
      some ((n0 * 4 + n1 / 16) :: (n1 % 16 * 16 + n2 / 4) :: (n2 % 4 * 64 + n3) :: tail)
  | _ => none

/-- XOR a byte stream against the keystream starting at position `i`
(`stream.XORKeyStream`). -/
def ctrXorFrom (ks : ℕ → ℕ) : ℕ → List ℕ → List ℕ
  | _, [] => []
  | i, b :: bs => (b ^^^ ks i) :: ctrXorFrom ks (i + 1) bs

/-- The `Utils` object: the AES-CTR keystream under the fixed key, as a
function of the IV and the position. -/
structure UtilsM : Type where
  ks : List ℕ → ℕ → ℕ

/-- `Utils.Encrypt` (pkg/utils/security.go, lines 33-56): the 16-byte IV —
drawn at random in Go, a parameter here — is the head of the buffer, the
CTR-encrypted data the tail, and the whole buffer is base64-encoded. -/
def Encrypt (u : UtilsM) (iv : List ℕ) (data : List ℕ) : String :=
  ⟨base64EncodeBytes (iv ++ ctrXorFrom (u.ks iv) 0 data)⟩

/-- `Utils.Decrypt` (pkg/utils/security.go, lines 60-90): base64-decode,
reject buffers shorter than one AES block, split off the IV, XOR the rest
against the keystream it determines. -/
def Decrypt (u : UtilsM) (s : String) : Except Unit (List ℕ) :=
  match base64DecodeChars s.data with
  | none => .error ()
  | some ct =>
    if ct.length < 16 then .error ()
    else .ok (ctrXorFrom (u.ks (ct.take 16)) 0 (ct.drop 16))

/-! ## Claim C9: encrypt/decrypt round trip -/

theorem b64Index_b64Char_fin : ∀ n : Fin 64, b64Index (b64Char n.val) = some n.val := by
  decide

theorem b64Char_ne_pad_fin : ∀ n : Fin 64, b64Char n.val ≠ '=' := by
  decide

theorem b64Index_b64Char (n : ℕ) (h : n < 64) : b64Index (b64Char n) = some n :=
  b64Index_b64Char_fin ⟨n, h⟩

theorem b64Char_ne_pad (n : ℕ) (h : n < 64) : b64Char n ≠ '=' :=
  b64Char_ne_pad_fin ⟨n, h⟩

theorem base64EncodeBytes_ne_nil (bs : List ℕ) (h : bs ≠ []) :
    base64EncodeBytes bs ≠ [] := by
  match bs with
  | [] => exact absurd rfl h
  | [b0] => simp [base64EncodeBytes]
  | [b0, b1] => simp [base64EncodeBytes]
  | b0 :: b1 :: b2 :: rest => simp [base64EncodeBytes]

theorem base64_roundtrip (bs : List ℕ) (h : ∀ b ∈ bs, b < 256) :
    base64DecodeChars (base64EncodeBytes bs) = some bs := by
  match bs with
  | [] => rfl
  | [b0] =>
    have hb0 : b0 < 256 := h b0 (by simp)
    show base64DecodeChars [b64Char (b0 / 4), b64Char (b0 % 4 * 16), '=', '='] = some [b0]
    rw [base64DecodeChars]
    rw [if_pos rfl, if_pos ⟨rfl, rfl⟩, b64Index_b64Char _ (by omega),
      b64Index_b64Char _ (by omega)]
    simp only [Option.bind_eq_bind, Option.some_bind, Option.some.injEq, List.cons.injEq,
      and_true]
    omega
  | [b0, b1] =>
    have hb0 : b0 < 256 := h b0 (by simp)
    have hb1 : b1 < 256 := h b1 (by simp)
    show base64DecodeChars [b64Char (b0 / 4), b64Char (b0 % 4 * 16 + b1 / 16),
      b64Char (b1 % 16 * 4), '='] = some [b0, b1]
    rw [base64DecodeChars]
    rw [if_pos rfl,
      if_neg (fun hp => b64Char_ne_pad (b1 % 16 * 4) (by omega) hp.1),
      if_pos rfl, b64Index_b64Char _ (by omega), b64Index_b64Char _ (by omega),
      b64Index_b64Char _ (by omega)]
    simp only [Option.bind_eq_bind, Option.some_bind, Option.some.injEq, List.cons.injEq,
      and_true]
    constructor <;> omega
  | b0 :: b1 :: b2 :: rest =>
    have hb0 : b0 < 256 := h b0 (by simp)
    have hb1 : b1 < 256 := h b1 (by simp)
    have hb2 : b2 < 256 := h b2 (by simp)
    have ih := base64_roundtrip rest (fun b hb => h b (by simp [hb]))
    show base64DecodeChars (b64Char (b0 / 4) :: b64Char (b0 % 4 * 16 + b1 / 16)
      :: b64Char (b1 % 16 * 4 + b2 / 64) :: b64Char (b2 % 64)
      :: base64EncodeBytes rest) = some (b0 :: b1 :: b2 :: rest)
    match hrest : rest with
    | [] =>
      rw [base64DecodeChars]
      rw [if_pos (show base64EncodeBytes ([] : List ℕ) = [] from rfl),
        if_neg (fun hp => b64Char_ne_pad (b1 % 16 * 4 + b2 / 64) (by omega) hp.1),
        if_neg (b64Char_ne_pad (b2 % 64) (by omega)),
        b64Index_b64Char _ (by omega), b64Index_b64Char _ (by omega),
        b64Index_b64Char _ (by omega), b64Index_b64Char _ (by omega)]
      simp only [Option.bind_eq_bind, Option.some_bind, Option.some.injEq, List.cons.injEq,
        and_true]
      refine ⟨by omega, by omega, by omega⟩
    | r0 :: rtail =>
      rw [base64DecodeChars]
      rw [if_neg (base64EncodeBytes_ne_nil (r0 :: rtail) (by simp)),
        b64Index_b64Char _ (by omega), b64Index_b64Char _ (by omega),
        b64Index_b64Char _ (by omega), b64Index_b64Char _ (by omega), ih]
      simp only [Option.bind_eq_bind, Option.some_bind, Option.some.injEq, List.cons.injEq,
        and_true]
      refine ⟨by omega, by omega, by omega⟩

theorem ctrXorFrom_involutive (ks : ℕ → ℕ) :
    ∀ (i : ℕ) (bs : List ℕ), ctrXorFrom ks i (ctrXorFrom ks i bs) = bs := by
  intro i bs
  induction bs generalizing i with
  | nil => rfl
  | cons b rest ih =>
    rw [ctrXorFrom, ctrXorFrom, Nat.xor_assoc, Nat.xor_self, Nat.xor_zero, ih]

theorem ctrXorFrom_lt (ks : ℕ → ℕ) (hks : ∀ i, ks i < 256) :
    ∀ (i : ℕ) (bs : List ℕ), (∀ b ∈ bs, b < 256) →
      ∀ b ∈ ctrXorFrom ks i bs, b < 256 := by
  intro i bs
  induction bs generalizing i with
  | nil => intro _ b hb; cases hb
  | cons c rest ih =>
    intro hall b hb
    rw [ctrXorFrom] at hb
    rcases List.mem_cons.mp hb with rfl | hmem
    · exact Nat.xor_lt_two_pow (n := 8) (hall c (by simp)) (hks i)
    · exact ih (i + 1) (fun x hx => hall x (by simp [hx])) b hmem

/-- Claim C9: `Decrypt (Encrypt d)` returns `d` for every byte buffer, every
16-byte IV and every keystream: the IV is carried as the leading 16 bytes,
the base64 framing is inverted exactly, and the CTR XOR is an involution. -/
theorem encrypt_decrypt_roundtrip (u : UtilsM) (iv d : List ℕ)
    (hivlen : iv.length = 16)
    (hiv : ∀ b ∈ iv, b < 256)
    (hd : ∀ b ∈ d, b < 256)
    (hks : ∀ v i, u.ks v i < 256) :
    Decrypt u (Encrypt u iv d) = .ok d := by
  have hbytes : ∀ b ∈ iv ++ ctrXorFrom (u.ks iv) 0 d, b < 256 := by
    intro b hb
    rcases List.mem_append.mp hb with hmem | hmem
    · exact hiv b hmem
    · exact ctrXorFrom_lt (u.ks iv) (hks iv) 0 d hd b hmem
  rw [Encrypt, Decrypt]
  show (match base64DecodeChars (base64EncodeBytes (iv ++ ctrXorFrom (u.ks iv) 0 d)) with
    | none => (.error () : Except Unit (List ℕ))
    | some ct =>
      if ct.length < 16 then .error ()
      else .ok (ctrXorFrom (u.ks (ct.take 16)) 0 (ct.drop 16))) = .ok d
  rw [base64_roundtrip _ hbytes]
  have hlen : ¬((iv ++ ctrXorFrom (u.ks iv) 0 d).length < 16) := by
    rw [List.length_append, hivlen]
    omega
  show (if (iv ++ ctrXorFrom (u.ks iv) 0 d).length < 16 then (.error () : Except Unit (List ℕ))
    else .ok (ctrXorFrom (u.ks ((iv ++ ctrXorFrom (u.ks iv) 0 d).take 16)) 0
      ((iv ++ ctrXorFrom (u.ks iv) 0 d).drop 16))) = .ok d
  rw [if_neg hlen]
  have htake : (iv ++ ctrXorFrom (u.ks iv) 0 d).take 16 = iv := by
    rw [← hivlen]
    exact List.take_left iv _
  have hdrop : (iv ++ ctrXorFrom (u.ks iv) 0 d).drop 16 = ctrXorFrom (u.ks iv) 0 d := by
    rw [← hivlen]
    exact List.drop_left iv _
  rw [htake, hdrop, ctrXorFrom_involutive]

/-- Claim C9, witness: the round trip at a concrete keystream, IV and
buffer. -/
theorem encrypt_decrypt_roundtrip_witness :
    Decrypt ⟨fun _ _ => 37⟩ (Encrypt ⟨fun _ _ => 37⟩ (List.replicate 16 9) [7, 200, 0])
      = .ok [7, 200, 0] :=
  encrypt_decrypt_roundtrip ⟨fun _ _ => 37⟩ (List.replicate 16 9) [7, 200, 0]
    (by decide) (by decide) (by decide) (fun _ _ => by show (37 : ℕ) < 256; decide)

/-! ## Claim C10: the `.dat` file after `CreateTable` -/

/-- The proto3 serialization of a `Records` message with no entries is the
empty byte string (proto3 emits nothing for an empty map field). -/
def protoMarshalEmpty : List ℕ := []

/-- The `.dat` contents right after `NewTable`'s
`initializeFileIfNotExists`: the empty record set, marshalled, encrypted and
base64-framed. -/
def newTableDatFile (u : UtilsM) (iv : List ℕ) : String := Encrypt u iv protoMarshalEmpty

/-- The `.dat` contents at the end of `Database.CreateTable`
(pkg/data/database.go, lines 56-96): after `NewTable` wrote the encrypted
empty record set, the final `os.Create(filePath)` opens the existing file
with truncation, leaving it zero bytes. -/
def createTableDatFile (u : UtilsM) (iv : List ℕ) : String :=
  let afterInit := newTableDatFile u iv
  let afterCreate := (fun _ : String => "") afterInit
  afterCreate

/-- `Table.readRecordsFromFile` at the byte level (pkg/data/table.go, lines
677-705): a zero-length (or missing) file is the empty record set, read
before any decryption is attempted; otherwise decrypt and unmarshal, where
`um` stands for `proto.Unmarshal`. -/
def readRecordsFromFile (u : UtilsM) (um : List ℕ → Except Unit FileRecs)
    (content : String) : Except TErr FileRecs :=
  if content = "" then .ok []
  else
    match Decrypt u content with
    | .error _ => .error .decodeFailed
    | .ok bs =>
      match um bs with
      | .error _ => .error .decodeFailed
      | .ok rs => .ok rs

/-- Claim C10: after `CreateTable` the `.dat` file is zero bytes — the final
`os.Create` truncates the non-empty encrypted empty record set that
`NewTable` had written — and every read of a zero-byte file succeeds with the
empty record set, the emptiness check firing before decryption. -/
theorem create_table_zero_byte_file (u : UtilsM) (iv : List ℕ)
    (um : List ℕ → Except Unit FileRecs) (hivlen : iv.length = 16) :
    createTableDatFile u iv = ""
      ∧ newTableDatFile u iv ≠ ""
      ∧ readRecordsFromFile u um "" = .ok [] := by
  refine ⟨rfl, ?_, rfl⟩
  rw [newTableDatFile, Encrypt]
  intro hcontra
  have hdata : base64EncodeBytes (iv ++ ctrXorFrom (u.ks iv) 0 protoMarshalEmpty) = [] := by
    have := congrArg String.data hcontra
    simpa using this
  have hnil : iv ++ ctrXorFrom (u.ks iv) 0 protoMarshalEmpty ≠ [] := by
    intro hh
    have := congrArg List.length hh
    rw [List.length_append, hivlen] at this
    simp at this
  exact base64EncodeBytes_ne_nil _ hnil hdata

/-- Claim C10, witness: the file lifecycle at a concrete keystream and IV. -/
theorem create_table_zero_byte_file_witness :
    createTableDatFile ⟨fun _ _ => 0⟩ (List.replicate 16 0) = ""
      ∧ newTableDatFile ⟨fun _ _ => 0⟩ (List.replicate 16 0) ≠ ""
      ∧ readRecordsFromFile ⟨fun _ _ => 0⟩ (fun _ => .ok []) "" = .ok [] :=
  create_table_zero_byte_file ⟨fun _ _ => 0⟩ (List.replicate 16 0) (fun _ => .ok [])
    (by decide)

end DBProto
